import Mathlib

/-!
Verification of the `lru-cache` crate (`src/lib.rs`, `src/entry.rs`).

The cache is a thin eviction layer over the external `linked-hash-map`
crate, which the specification describes at its interface as the
Ordered Associative Store: a hash-indexed sequence of key-value pairs
kept in recency order, front = least-recently-used, back =
most-recently-used.  We embed that store as a front-to-back list of
pairs; the `lhm` definitions below are modelled from the spec of that
interface, and every `LruCache` operation is translated directly from
the Rust source.
-/

set_option autoImplicit false

universe u v

variable {K : Type u} {V : Type v}

/-- Predicate on a pair: does it carry key `k`?  Used to locate the
entry for `k` in the store list. -/
def keyIs [DecidableEq K] (k : K) (p : K × V) : Bool := p.1 == k

/-- Modelled from the spec: store lookup of the value for key `k`
(the hash-index side of the Ordered Associative Store).  Returns the
value of the unique entry with key `k`, if any. -/
def lhmFindVal [DecidableEq K] (m : List (K × V)) (k : K) : Option V :=
  (m.find? (keyIs k)).map Prod.snd

/-- Modelled from the spec: `LinkedHashMap::insert`.  If `k` is
present, replace its value, return the old value, and move `k` to the
most-recently-used position (back); if absent, insert `k` at the back
and return none. -/
def lhmInsert [DecidableEq K] (m : List (K × V)) (k : K) (v : V) :
    Option V × List (K × V) :=
  (lhmFindVal m k, m.eraseP (keyIs k) ++ [(k, v)])

/-- Modelled from the spec: `LinkedHashMap::get_refresh`.  Look up
`k`; if present, move it to the back (most-recently-used) and return
its value; if absent, return none and leave the store unchanged. -/
def lhmGetRefresh [DecidableEq K] (m : List (K × V)) (k : K) :
    Option V × List (K × V) :=
  match lhmFindVal m k with
  | none => (none, m)
  | some v => (some v, m.eraseP (keyIs k) ++ [(k, v)])

/-- Modelled from the spec: `LinkedHashMap::remove`.  Remove `k` and
its order position, returning its value if present. -/
def lhmRemove [DecidableEq K] (m : List (K × V)) (k : K) :
    Option V × List (K × V) :=
  (lhmFindVal m k, m.eraseP (keyIs k))

/-- Modelled from the spec: `LinkedHashMap::pop_front`.  Remove and
return the least-recently-used pair (the front), or none if empty. -/
def lhmPopFront (m : List (K × V)) : Option (K × V) × List (K × V) :=
  match m with
  | [] => (none, [])
  | x :: xs => (some x, xs)

/-- `LruCache` from `src/lib.rs`: the store plus the capacity bound
`max_size`. -/
structure LruCache (K : Type u) (V : Type v) where
  map : List (K × V)
  max_size : Nat

namespace LruCache

/-- `LruCache::new(capacity)`: empty store, `max_size = capacity`. -/
def new (capacity : Nat) : LruCache K V :=
  { map := [], max_size := capacity }

/-- `LruCache::capacity`: returns `max_size`. -/
def capacity (c : LruCache K V) : Nat := c.max_size

/-- `LruCache::len`: delegates to the store length. -/
def len (c : LruCache K V) : Nat := c.map.length

/-- `LruCache::is_empty`: delegates to the store. -/
def is_empty (c : LruCache K V) : Bool := c.map.isEmpty

/-- `LruCache::remove_lru` (private): pops the front of the store. -/
def remove_lru (c : LruCache K V) : LruCache K V :=
  { c with map := (lhmPopFront c.map).2 }

/-- The post-insert capacity check shared by `LruCache::insert` and
`VacantEntry::insert`: `if self.len() > self.capacity() {
self.remove_lru(); }` — a single conditional pop, not a loop. -/
def evict1 (c : LruCache K V) : LruCache K V :=
  if c.len > c.capacity then c.remove_lru else c

/-- `LruCache::insert`: store insert, then the single capacity check;
returns whatever the store insert returned (the pre-eviction old
value). -/
def insert [DecidableEq K] (c : LruCache K V) (k : K) (v : V) :
    Option V × LruCache K V :=
  let r := lhmInsert c.map k v
  (r.1, evict1 { c with map := r.2 })

/-- `LruCache::get`: delegates to the store `get_refresh`. -/
def get [DecidableEq K] (c : LruCache K V) (k : K) :
    Option V × LruCache K V :=
  let r := lhmGetRefresh c.map k
  (r.1, { c with map := r.2 })

/-- `LruCache::remove`: delegates to the store remove. -/
def remove [DecidableEq K] (c : LruCache K V) (k : K) :
    Option V × LruCache K V :=
  let r := lhmRemove c.map k
  (r.1, { c with map := r.2 })

/-- Iterated `remove_lru`, used by `set_capacity`. -/
def removeLruN : LruCache K V → Nat → LruCache K V
  | c, 0 => c
  | c, n + 1 => removeLruN c.remove_lru n

/-- `LruCache::set_capacity`: `for _ in capacity..self.len() {
self.remove_lru(); }` pops the front `len - capacity` times (zero
times when `capacity ≥ len`), then sets `max_size`. -/
def set_capacity (c : LruCache K V) (capacity : Nat) : LruCache K V :=
  { removeLruN c (c.len - capacity) with max_size := capacity }

/-- `LruCache::clear`: delegates to the store clear. -/
def clear (c : LruCache K V) : LruCache K V :=
  { c with map := [] }

/-- `Extend::extend`: inserts the pairs one at a time via
`LruCache::insert`. -/
def extend [DecidableEq K] (c : LruCache K V) (l : List (K × V)) :
    LruCache K V :=
  l.foldl (fun a p => (a.insert p.1 p.2).2) c

/-- Renders one entry the way the `Debug` impl does:
`write!(f, "{:?}: {:?}", *k, *v)`, with the textual representation of
keys and values supplied as functions. -/
def fmtEntry (fk : K → String) (fv : V → String) (p : K × V) : String :=
  fk p.1 ++ ": " ++ fv p.2

/-- The `Debug` impl from `src/lib.rs`: write `{`, then iterate the
store in reverse order with indices, writing `, ` before every entry
whose index is nonzero, then write `}`. -/
def debugFmt (fk : K → String) (fv : V → String) (c : LruCache K V) :
    String :=
  (c.map.reverse.enum.foldl
    (fun acc ip =>
      acc ++ (if ip.1 ≠ 0 then ", " else "") ++ fmtEntry fk fv ip.2)
    "\x7b") ++ "\x7d"

/-- Separator-joined rendering of a list of strings with comma-space
separators, as the spec words describe the debug format. -/
def joinSep : List String → String
  | [] => ""
  | [s] => s
  | s :: rest => s ++ ", " ++ joinSep rest

/-- The debug format as the spec words it: the entries from
most-recently-used to least-recently-used (reverse of the internal
front-to-back order), comma-space separated, between braces. -/
def debugRenderSpec (fk : K → String) (fv : V → String)
    (c : LruCache K V) : String :=
  "\x7b" ++ joinSep (c.map.reverse.map (fmtEntry fk fv)) ++ "\x7d"

/-- `VacantEntry::insert` from `src/entry.rs`: the key is absent, so
the store insert places it at the back; then the same single capacity
check as `LruCache::insert` runs against the cache; the returned
reference is to the freshly inserted value (taken before the check). -/
def vacantInsert (c : LruCache K V) (k : K) (v : V) :
    V × LruCache K V :=
  (v, evict1 { c with map := c.map ++ [(k, v)] })

/-- `Entry::or_insert` from `src/entry.rs`: on an occupied entry,
return the existing value (`into_mut`) and leave the cache unchanged;
on a vacant entry, perform `VacantEntry::insert`. -/
def or_insert [DecidableEq K] (c : LruCache K V) (k : K) (v : V) :
    V × LruCache K V :=
  match lhmFindVal c.map k with
  | some v0 => (v0, c)
  | none => vacantInsert c k v

/-- `OccupiedEntry::insert` from `src/entry.rs`: overwrite the value
of the entry for `k` in place (no order change, no capacity check);
when no entry for `k` exists no occupied entry can be materialised,
so the cache is unchanged elementwise. -/
def entry_insert [DecidableEq K] (c : LruCache K V) (k : K) (v : V) :
    LruCache K V :=
  { c with map := c.map.map (fun p => if p.1 == k then (p.1, v) else p) }

/-- `OccupiedEntry::remove` from `src/entry.rs`: delete the entry for
`k` (same store effect as `LruCache::remove`). -/
def entry_remove [DecidableEq K] (c : LruCache K V) (k : K) :
    LruCache K V :=
  { c with map := c.map.eraseP (keyIs k) }

/-- The keys of the store are pairwise distinct: the data-structure
invariant of the Ordered Associative Store (every key has exactly one
position in the order). -/
def keysNodup (c : LruCache K V) : Prop :=
  (c.map.map Prod.fst).Nodup

end LruCache

/-- One public operation of the cache API, for stating the
all-operation invariant. -/
inductive Op (K : Type u) (V : Type v) where
  | insert (k : K) (v : V)
  | get (k : K)
  | remove (k : K)
  | set_capacity (n : Nat)
  | extend (l : List (K × V))
  | clear
  | entry_or_insert (k : K) (v : V)
  | entry_insert (k : K) (v : V)
  | entry_remove (k : K)

/-- State effect of one public operation. -/
def applyOp [DecidableEq K] (c : LruCache K V) : Op K V → LruCache K V
  | .insert k v => (c.insert k v).2
  | .get k => (c.get k).2
  | .remove k => (c.remove k).2
  | .set_capacity n => c.set_capacity n
  | .extend l => c.extend l
  | .clear => c.clear
  | .entry_or_insert k v => (c.or_insert k v).2
  | .entry_insert k v => c.entry_insert k v
  | .entry_remove k => c.entry_remove k

/-- Runs a sequence of public operations. -/
def runOps [DecidableEq K] (c : LruCache K V) (ops : List (Op K V)) :
    LruCache K V :=
  ops.foldl applyOp c

/-- The last `n` elements of a list (a suffix). -/
def lastN {α : Type u} (n : Nat) (l : List α) : List α :=
  (l.reverse.take n).reverse

namespace LruCache

variable {K : Type u} {V : Type v}

@[simp] lemma map_mk (m : List (K × V)) (n : Nat) :
    (LruCache.mk m n).map = m := rfl

@[simp] lemma max_size_mk (m : List (K × V)) (n : Nat) :
    (LruCache.mk m n).max_size = n := rfl

@[simp] lemma capacity_eq (c : LruCache K V) : c.capacity = c.max_size := rfl

@[simp] lemma len_eq (c : LruCache K V) : c.len = c.map.length := rfl

@[simp] lemma remove_lru_map (c : LruCache K V) :
    c.remove_lru.map = c.map.tail := by
  cases h : c.map <;> simp [remove_lru, lhmPopFront, h]

@[simp] lemma remove_lru_max_size (c : LruCache K V) :
    c.remove_lru.max_size = c.max_size := rfl

@[simp] lemma evict1_max_size (c : LruCache K V) :
    (evict1 c).max_size = c.max_size := by
  unfold evict1; split <;> simp

lemma evict1_len_le (c : LruCache K V) (h : c.len ≤ c.capacity + 1) :
    (evict1 c).len ≤ (evict1 c).capacity := by
  unfold evict1
  split <;> rename_i hc <;> simp_all

@[simp] lemma insert_snd_max_size [DecidableEq K] (c : LruCache K V)
    (k : K) (v : V) : (c.insert k v).2.max_size = c.max_size := by
  simp [insert]

lemma removeLruN_map (c : LruCache K V) (n : Nat) :
    (removeLruN c n).map = c.map.drop n := by
  induction n generalizing c with
  | zero => simp [removeLruN]
  | succ m ih =>
      rw [removeLruN, ih]
      simp [← List.drop_one, List.drop_drop]
      congr 1
      omega

@[simp] lemma removeLruN_max_size (c : LruCache K V) (n : Nat) :
    (removeLruN c n).max_size = c.max_size := by
  induction n generalizing c with
  | zero => rfl
  | succ m ih => rw [removeLruN, ih]; rfl

lemma set_capacity_map (c : LruCache K V) (n : Nat) :
    (c.set_capacity n).map = c.map.drop (c.map.length - n) := by
  simp [set_capacity, removeLruN_map]

@[simp] lemma set_capacity_max_size (c : LruCache K V) (n : Nat) :
    (c.set_capacity n).max_size = n := rfl

end LruCache

open LruCache

/-- Claim C10: `clear()` removes all entries (`len()` becomes 0 and
`is_empty()` returns true afterward) but leaves `capacity()`
unchanged. -/
theorem clear_spec (c : LruCache Nat Nat) :
    c.clear.len = 0 ∧ c.clear.is_empty = true ∧
      c.clear.capacity = c.capacity := by
  refine ⟨rfl, ?_, rfl⟩
  simp [LruCache.clear, LruCache.is_empty]

/-- Claim C6: `set_capacity(n)` with `n ≥ len()` evicts nothing and
leaves the store unchanged; with `n < len()` it removes exactly
`len() - n` entries from the front (least-recently-used first),
leaving `len() = n`; in both cases `capacity() = n` afterward. -/
theorem set_capacity_spec (c : LruCache Nat Nat) (n : Nat) :
    (c.set_capacity n).capacity = n ∧
      (c.len ≤ n → (c.set_capacity n).map = c.map) ∧
      (n < c.len →
        (c.set_capacity n).map = c.map.drop (c.len - n) ∧
          (c.set_capacity n).len = n) := by
  refine ⟨rfl, ?_, ?_⟩
  · intro h
    rw [set_capacity_map]
    have : c.map.length - n = 0 := by simp at h; omega
    simp [this]
  · intro h
    refine ⟨set_capacity_map c n, ?_⟩
    simp only [len_eq, set_capacity_map, List.length_drop] at *
    omega

/-- Claim C6 witness: shrinking a three-entry cache to capacity 1
drops the two front (least-recently-used) entries. -/
theorem set_capacity_spec_witness :
    ((⟨[(1, 10), (2, 20), (3, 30)], 3⟩ :
        LruCache Nat Nat).set_capacity 1).map = [(3, 30)] := by
  have h := (set_capacity_spec ⟨[(1, 10), (2, 20), (3, 30)], 3⟩ 1).2.2
  exact (h (by decide)).1

section StoreLemmas

variable {K : Type u} {V : Type v} [DecidableEq K]

@[simp] lemma keyIs_eq_true (k : K) (p : K × V) :
    keyIs k p = true ↔ p.1 = k := by
  simp [keyIs]

lemma lhmFindVal_eq_none_iff (m : List (K × V)) (k : K) :
    lhmFindVal m k = none ↔ k ∉ m.map Prod.fst := by
  unfold lhmFindVal
  rw [Option.map_eq_none', List.find?_eq_none]
  simp only [keyIs_eq_true, List.mem_map]
  aesop

lemma lhmFindVal_of_nodup (m : List (K × V)) (k : K) (v : V)
    (hnd : (m.map Prod.fst).Nodup) (hmem : (k, v) ∈ m) :
    lhmFindVal m k = some v := by
  induction m with
  | nil => cases hmem
  | cons p t ih =>
      simp only [List.map_cons, List.nodup_cons, List.mem_map] at hnd
      rcases List.mem_cons.1 hmem with h | h
      · subst h
        simp [lhmFindVal, List.find?_cons, keyIs]
      · have hne : p.1 ≠ k := by
          rintro rfl
          exact hnd.1 ⟨(p.1, v), h, rfl⟩
        have : keyIs k p = false := by
          simp [keyIs, hne]
        simp only [lhmFindVal, List.find?_cons, this]
        exact ih hnd.2 h

lemma eraseP_keyIs_not_mem (m : List (K × V)) (k : K)
    (hnd : (m.map Prod.fst).Nodup) :
    k ∉ (m.eraseP (keyIs k)).map Prod.fst := by
  induction m with
  | nil => simp
  | cons p t ih =>
      simp only [List.map_cons, List.nodup_cons, List.mem_map] at hnd
      by_cases hp : p.1 = k
      · rw [List.eraseP_cons_of_pos (l := t) (by simpa [keyIs])]
        subst hp
        intro hk
        rcases List.mem_map.1 hk with ⟨q, hq, hq1⟩
        exact hnd.1 ⟨q, hq, hq1⟩
      · rw [List.eraseP_cons_of_neg (l := t) (by simpa [keyIs])]
        simp only [List.map_cons, List.mem_cons]
        rintro (h | h)
        · exact hp h.symm
        · exact ih hnd.2 h

lemma eraseP_keyIs_of_absent (m : List (K × V)) (k : K)
    (h : k ∉ m.map Prod.fst) : m.eraseP (keyIs k) = m := by
  apply List.eraseP_of_forall_not
  intro p hp
  simp only [keyIs_eq_true]
  intro hq
  exact h (List.mem_map.2 ⟨p, hp, hq⟩)

lemma lhmFindVal_append_absent_left (m₁ m₂ : List (K × V)) (k : K)
    (h : k ∉ m₁.map Prod.fst) :
    lhmFindVal (m₁ ++ m₂) k = lhmFindVal m₂ k := by
  have hfind : m₁.find? (keyIs k) = none := by
    rw [List.find?_eq_none]
    intro p hp
    simp only [keyIs_eq_true]
    intro hq
    exact h (List.mem_map.2 ⟨p, hp, hq⟩)
  simp [lhmFindVal, List.find?_append, hfind]

@[simp] lemma lhmFindVal_singleton (k : K) (v : V) :
    lhmFindVal [(k, v)] k = some v := by
  simp [lhmFindVal, List.find?_cons, keyIs]

end StoreLemmas

namespace LruCache

variable {K : Type u} {V : Type v}

lemma insert_preserves_inv [DecidableEq K] (c : LruCache K V)
    (k : K) (v : V) (h : c.len ≤ c.capacity) :
    (c.insert k v).2.len ≤ (c.insert k v).2.capacity := by
  unfold insert
  apply evict1_len_le
  simp only [len_eq, map_mk, capacity_eq, max_size_mk, lhmInsert,
    List.length_append, List.length_cons, List.length_nil]
  have := (List.eraseP_sublist (l := c.map) (p := keyIs k)).length_le
  simp at h
  omega

end LruCache

/-- Claim C2 (amended): the eviction step of `insert` is a single
conditional pop, not a loop, so the post-insert bound `len() ≤
capacity()` is guaranteed exactly when the pre-insert state already
satisfied `len() ≤ capacity()` (which every state reachable through
the public API does); a state exceeding the capacity by more than one
is not repaired by a single insert. -/
theorem insert_restores_invariant (c : LruCache Nat Nat) (k v : Nat)
    (h : c.len ≤ c.capacity) :
    (c.insert k v).2.len ≤ (c.insert k v).2.capacity :=
  c.insert_preserves_inv k v h

/-- Claim C2 witness: a full cache of capacity 1 still satisfies
`len ≤ capacity` after inserting a fresh key. -/
theorem insert_restores_invariant_witness :
    (⟨[(1, 10)], 1⟩ : LruCache Nat Nat).len ≤
        (⟨[(1, 10)], 1⟩ : LruCache Nat Nat).capacity ∧
      (((⟨[(1, 10)], 1⟩ : LruCache Nat Nat).insert 2 20).2).len ≤
        (((⟨[(1, 10)], 1⟩ : LruCache Nat Nat).insert 2 20).2).capacity :=
  ⟨by decide, insert_restores_invariant ⟨[(1, 10)], 1⟩ 2 20 (by decide)⟩

/-- Claim C2 counterexample: the claim quantifies over every cache
state, including states where `len()` exceeds `capacity()` by more
than one; from the state with entries `[(1,10),(2,20),(3,30)]` and
capacity 0, `insert(4,40)` pops only once (the code performs `if len >
capacity`, not a `while` loop), leaving `len() = 3 > 0 =
capacity()`. -/
theorem insert_not_loop_counterexample :
    ¬ ((((⟨[(1, 10), (2, 20), (3, 30)], 0⟩ :
          LruCache Nat Nat).insert 4 40).2).len ≤
        (((⟨[(1, 10), (2, 20), (3, 30)], 0⟩ :
          LruCache Nat Nat).insert 4 40).2).capacity) := by
  decide

lemma lhmFindVal_some_mem {K : Type u} {V : Type v} [DecidableEq K]
    {m : List (K × V)} {k : K} {v0 : V}
    (h : lhmFindVal m k = some v0) : ∃ p ∈ m, p.1 = k := by
  unfold lhmFindVal at h
  rcases Option.map_eq_some'.1 h with ⟨p, hp, _⟩
  exact ⟨p, List.mem_of_find?_eq_some hp, by simpa using List.find?_some hp⟩

/-- Claim C3 counterexample: on the fresh cache of capacity 0,
`insert(1, 10)` returns none as the claim says, but afterward the
store is empty, so the key has not been placed at the
most-recently-used position (it was evicted within the call). -/
theorem insert_mru_counterexample :
    ((LruCache.new 0 : LruCache Nat Nat).insert 1 10).1 = none ∧
      ((LruCache.new 0 : LruCache Nat Nat).insert 1 10).2.map = [] := by
  decide

/-- Claim C3 (amended): on a cache satisfying the store invariant
(distinct keys) and the public invariant `len() ≤ capacity()`:
re-inserting a present key returns the old value, leaves `len()`
unchanged, and moves the key to the most-recently-used (back)
position with the new value; inserting an absent key returns none
and, provided `capacity() ≥ 1`, places the key at the
most-recently-used position.  In both cases the returned value is the
store result computed before the eviction check. -/
theorem insert_contract (c : LruCache Nat Nat) (k v : Nat)
    (hnd : c.keysNodup) (hinv : c.len ≤ c.capacity) :
    (c.insert k v).1 = lhmFindVal c.map k ∧
      (∀ v0, lhmFindVal c.map k = some v0 →
        (c.insert k v).2.len = c.len ∧
          (c.insert k v).2.map.getLast? = some (k, v) ∧
          lhmFindVal (c.insert k v).2.map k = some v) ∧
      (lhmFindVal c.map k = none →
        (c.insert k v).1 = none ∧
          (1 ≤ c.capacity →
            (c.insert k v).2.map.getLast? = some (k, v) ∧
            lhmFindVal (c.insert k v).2.map k = some v)) := by
  have hsub := (List.eraseP_sublist (l := c.map) (p := keyIs k)).length_le
  have hout : k ∉ (c.map.eraseP (keyIs k)).map Prod.fst :=
    eraseP_keyIs_not_mem c.map k hnd
  refine ⟨rfl, ?_, ?_⟩
  · intro v0 hv0
    obtain ⟨p, hpmem, hpk⟩ := lhmFindVal_some_mem hv0
    have hplen : (c.map.eraseP (keyIs k)).length = c.map.length - 1 :=
      List.length_eraseP_of_mem hpmem (by simp [keyIs, hpk])
    have hpos : 0 < c.map.length := List.length_pos_of_mem hpmem
    have hm1 : ((lhmInsert c.map k v).2).length = c.map.length := by
      simp only [lhmInsert, List.length_append, List.length_cons,
        List.length_nil, hplen]
      omega
    have hnoev :
        evict1 ({ c with map := (lhmInsert c.map k v).2 } :
            LruCache Nat Nat) =
          { c with map := (lhmInsert c.map k v).2 } := by
      unfold evict1
      rw [if_neg]
      simp only [len_eq, map_mk, capacity_eq, max_size_mk, hm1]
      simp only [len_eq, capacity_eq] at hinv
      omega
    refine ⟨?_, ?_, ?_⟩
    · show (evict1 _).len = c.len
      rw [hnoev]
      simpa using hm1
    · show (evict1 _).map.getLast? = some (k, v)
      rw [hnoev]
      simp [lhmInsert]
    · show lhmFindVal (evict1 _).map k = some v
      rw [hnoev]
      simp only [map_mk, lhmInsert]
      rw [lhmFindVal_append_absent_left _ _ _ hout]
      exact lhmFindVal_singleton k v
  · intro h0
    have habs : k ∉ c.map.map Prod.fst :=
      (lhmFindVal_eq_none_iff c.map k).1 h0
    have he : c.map.eraseP (keyIs k) = c.map :=
      eraseP_keyIs_of_absent c.map k habs
    refine ⟨h0, ?_⟩
    intro hcap
    show ((evict1 _).map.getLast? = some (k, v)) ∧
      lhmFindVal (evict1 _).map k = some v
    unfold evict1
    simp only [lhmInsert, he, len_eq, map_mk, capacity_eq, max_size_mk,
      List.length_append, List.length_cons, List.length_nil]
    simp only [len_eq, capacity_eq] at hinv hcap
    split
    · rename_i hgt
      have hcm : c.map.length = c.max_size := by omega
      match hm : c.map with
      | [] =>
          rw [hm] at hcm
          simp only [List.length_nil] at hcm
          omega
      | x :: xs =>
          rw [hm] at habs
          constructor
          · simp only [remove_lru_map, map_mk, List.cons_append,
              List.tail_cons]
            exact List.getLast?_concat _
          · simp only [remove_lru_map, map_mk, List.cons_append,
              List.tail_cons]
            rw [lhmFindVal_append_absent_left]
            · exact lhmFindVal_singleton k v
            · intro hkx
              apply habs
              simp only [List.map_cons, List.mem_cons]
              right
              exact hkx
    · constructor
      · simp only [map_mk]
        exact List.getLast?_concat _
      · simp only [map_mk]
        rw [lhmFindVal_append_absent_left _ _ _ habs]
        exact lhmFindVal_singleton k v

/-- Claim C3 witness: re-inserting key 1 in a two-entry cache keeps
the length at 2 and moves the key, with its new value, to the back. -/
theorem insert_contract_witness :
    ((⟨[(1, 10), (2, 20)], 2⟩ : LruCache Nat Nat).insert 1 99).2.len = 2 ∧
      ((⟨[(1, 10), (2, 20)], 2⟩ :
          LruCache Nat Nat).insert 1 99).2.map.getLast? = some (1, 99) := by
  have h :=
    (insert_contract ⟨[(1, 10), (2, 20)], 2⟩ 1 99
      (by unfold LruCache.keysNodup; decide) (by decide)).2.1 10 (by decide)
  exact ⟨h.1, h.2.1⟩

namespace LruCache

variable {K : Type u} {V : Type v}

lemma get_len [DecidableEq K] (c : LruCache K V) (k : K) :
    (c.get k).2.len = c.len := by
  unfold get lhmGetRefresh
  cases h : lhmFindVal c.map k with
  | none => simp
  | some v =>
      obtain ⟨p, hpmem, hpk⟩ := lhmFindVal_some_mem h
      have hplen : (c.map.eraseP (keyIs k)).length = c.map.length - 1 :=
        List.length_eraseP_of_mem hpmem (by simp [keyIs, hpk])
      have hpos : 0 < c.map.length := List.length_pos_of_mem hpmem
      simp only [len_eq, map_mk, List.length_append, List.length_cons,
        List.length_nil, hplen]
      omega

lemma remove_len_le [DecidableEq K] (c : LruCache K V) (k : K) :
    (c.remove k).2.len ≤ c.len := by
  unfold remove lhmRemove
  simpa using (List.eraseP_sublist (l := c.map) (p := keyIs k)).length_le

lemma set_capacity_len_le (c : LruCache K V) (n : Nat) :
    (c.set_capacity n).len ≤ n := by
  simp only [len_eq, set_capacity_map, List.length_drop]
  omega

lemma or_insert_preserves_inv [DecidableEq K] (c : LruCache K V)
    (k : K) (v : V) (h : c.len ≤ c.capacity) :
    (c.or_insert k v).2.len ≤ (c.or_insert k v).2.capacity := by
  unfold or_insert
  cases hf : lhmFindVal c.map k with
  | some v0 => simpa using h
  | none =>
      unfold vacantInsert
      apply evict1_len_le
      simp only [len_eq, map_mk, capacity_eq, max_size_mk,
        List.length_append, List.length_cons, List.length_nil]
      simp only [len_eq, capacity_eq] at h
      omega

lemma entry_insert_len [DecidableEq K] (c : LruCache K V)
    (k : K) (v : V) : (c.entry_insert k v).len = c.len := by
  simp [entry_insert]

lemma entry_remove_len_le [DecidableEq K] (c : LruCache K V) (k : K) :
    (c.entry_remove k).len ≤ c.len := by
  simpa [entry_remove] using
    (List.eraseP_sublist (l := c.map) (p := keyIs k)).length_le

@[simp] lemma entry_insert_max_size [DecidableEq K] (c : LruCache K V)
    (k : K) (v : V) : (c.entry_insert k v).max_size = c.max_size := rfl

lemma extend_preserves_inv [DecidableEq K] (c : LruCache K V)
    (l : List (K × V)) (h : c.len ≤ c.capacity) :
    (c.extend l).len ≤ (c.extend l).capacity := by
  induction l generalizing c with
  | nil => simpa [extend] using h
  | cons p t ih =>
      have hstep := c.insert_preserves_inv p.1 p.2 h
      have : (c.extend (p :: t)) = ((c.insert p.1 p.2).2).extend t := rfl
      rw [this]
      exact ih _ hstep

end LruCache

/-- Invariant preservation for a single public operation. -/
lemma applyOp_preserves_inv {K : Type u} {V : Type v} [DecidableEq K]
    (c : LruCache K V) (op : Op K V) (h : c.len ≤ c.capacity) :
    (applyOp c op).len ≤ (applyOp c op).capacity := by
  cases op with
  | insert k v => exact c.insert_preserves_inv k v h
  | get k =>
      show (c.get k).2.len ≤ (c.get k).2.capacity
      rw [LruCache.get_len]
      simpa [LruCache.get] using h
  | remove k =>
      show (c.remove k).2.len ≤ (c.remove k).2.capacity
      have := c.remove_len_le k
      have hcap : (c.remove k).2.capacity = c.capacity := rfl
      omega
  | set_capacity n =>
      show (c.set_capacity n).len ≤ (c.set_capacity n).capacity
      have := c.set_capacity_len_le n
      simpa using this
  | extend l => exact c.extend_preserves_inv l h
  | clear =>
      show (c.clear).len ≤ (c.clear).capacity
      simp [LruCache.clear, LruCache.len, LruCache.capacity]
  | entry_or_insert k v => exact c.or_insert_preserves_inv k v h
  | entry_insert k v =>
      show (c.entry_insert k v).len ≤ (c.entry_insert k v).capacity
      rw [LruCache.entry_insert_len]
      simpa using h
  | entry_remove k =>
      show (c.entry_remove k).len ≤ (c.entry_remove k).capacity
      have := c.entry_remove_len_le k
      have hcap : (c.entry_remove k).capacity = c.capacity := rfl
      omega

lemma runOps_preserves_inv {K : Type u} {V : Type v} [DecidableEq K]
    (c : LruCache K V) (ops : List (Op K V)) (h : c.len ≤ c.capacity) :
    (runOps c ops).len ≤ (runOps c ops).capacity := by
  induction ops generalizing c with
  | nil => simpa [runOps] using h
  | cons op t ih =>
      have : runOps c (op :: t) = runOps (applyOp c op) t := rfl
      rw [this]
      exact ih _ (applyOp_preserves_inv c op h)

/-- Claim C1: for every sequence of public operations (insert, get,
remove, set_capacity, extend, clear, and the entry operations)
starting from `new(capacity)`, after each call returns `len() ≤
capacity()` holds: each initial segment of the sequence is itself a
sequence, so the bound after each call is the bound after every
run. -/
theorem public_ops_invariant (cap : Nat) (ops : List (Op Nat Nat)) :
    (runOps (LruCache.new cap) ops).len ≤
      (runOps (LruCache.new cap) ops).capacity :=
  runOps_preserves_inv (LruCache.new cap) ops (by simp [LruCache.new])

namespace LruCache

variable {K : Type u} {V : Type v}

lemma insert_cap0 [DecidableEq K] (c : LruCache K V) (k : K) (v : V)
    (h0 : c.max_size = 0) (he : c.map = []) :
    (c.insert k v).1 = none ∧ (c.insert k v).2.map = [] ∧
      (c.insert k v).2.max_size = 0 := by
  refine ⟨?_, ?_, by simp [h0]⟩
  · show lhmFindVal c.map k = none
    rw [he]
    simp [lhmFindVal]
  · unfold insert lhmInsert evict1
    rw [he]
    simp [h0, List.eraseP_nil]

lemma extend_cap0 [DecidableEq K] (c : LruCache K V)
    (l : List (K × V)) (h0 : c.max_size = 0) (he : c.map = []) :
    (c.extend l).map = [] ∧ (c.extend l).max_size = 0 := by
  induction l generalizing c with
  | nil => exact ⟨he, h0⟩
  | cons p t ih =>
      have hstep := c.insert_cap0 p.1 p.2 h0 he
      have : (c.extend (p :: t)) = ((c.insert p.1 p.2).2).extend t := rfl
      rw [this]
      exact ih _ hstep.2.2 hstep.2.1

end LruCache

/-- Claim C7: on a cache with capacity 0 (and hence, by the public
invariant, an empty store), every `insert(k, v)` returns none — no
prior value can exist — and does not retain the entry, and `len()` is
0 after every public operation applied to such a cache. -/
theorem capacity_zero_spec (c : LruCache Nat Nat)
    (h0 : c.capacity = 0) (he : c.map = []) :
    (∀ k v, (c.insert k v).1 = none ∧ (c.insert k v).2.len = 0) ∧
      (∀ op : Op Nat Nat, (applyOp c op).len = 0) := by
  have h0m : c.max_size = 0 := h0
  constructor
  · intro k v
    have h := c.insert_cap0 k v h0m he
    exact ⟨h.1, by simp [h.2.1]⟩
  · intro op
    cases op with
    | insert k v => simpa using (c.insert_cap0 k v h0m he).2.1
    | get k =>
        show (c.get k).2.len = 0
        rw [LruCache.get_len]
        simp [he]
    | remove k =>
        show (c.remove k).2.len = 0
        simp [LruCache.remove, lhmRemove, he]
    | set_capacity n =>
        show (c.set_capacity n).len = 0
        simp [LruCache.set_capacity_map, he]
    | extend l =>
        show (c.extend l).len = 0
        simpa using (c.extend_cap0 l h0m he).1
    | clear =>
        show (c.clear).len = 0
        simp [LruCache.clear]
    | entry_or_insert k v =>
        show (c.or_insert k v).2.len = 0
        unfold LruCache.or_insert LruCache.vacantInsert LruCache.evict1
        rw [he]
        simp [lhmFindVal, h0m]
    | entry_insert k v =>
        show (c.entry_insert k v).len = 0
        simp [LruCache.entry_insert, he]
    | entry_remove k =>
        show (c.entry_remove k).len = 0
        simp [LruCache.entry_remove, he]

/-- Claim C7 witness: on the fresh capacity-0 cache, inserting,
then checking one public operation, always leaves length 0. -/
theorem capacity_zero_spec_witness :
    ((LruCache.new 0 : LruCache Nat Nat).insert 1 10).1 = none ∧
      ((LruCache.new 0 : LruCache Nat Nat).insert 1 10).2.len = 0 ∧
      (applyOp (LruCache.new 0 : LruCache Nat Nat)
        (Op.extend [(1, 10), (2, 20)])).len = 0 := by
  have h := capacity_zero_spec (LruCache.new 0) rfl rfl
  exact ⟨(h.1 1 10).1, (h.1 1 10).2, h.2 (Op.extend [(1, 10), (2, 20)])⟩

/-- Claim C9: `Entry::or_insert(v)` on a present key returns the
existing value and leaves the cache — hence the stored value and
`len()` — unchanged; on an absent key it performs
`VacantEntry::insert`, whose state effect (insert at the
most-recently-used position followed by exactly one `if len() >
capacity() { pop_front }` check) coincides with `LruCache::insert`,
and it returns the freshly inserted value. -/
theorem or_insert_contract (c : LruCache Nat Nat) (k v : Nat) :
    (∀ v0, lhmFindVal c.map k = some v0 → c.or_insert k v = (v0, c)) ∧
      (lhmFindVal c.map k = none →
        (c.or_insert k v).1 = v ∧
          (c.or_insert k v).2 = (c.insert k v).2) := by
  constructor
  · intro v0 h
    simp [LruCache.or_insert, h]
  · intro h
    have he : c.map.eraseP (keyIs k) = c.map :=
      eraseP_keyIs_of_absent c.map k ((lhmFindVal_eq_none_iff c.map k).1 h)
    unfold LruCache.or_insert LruCache.vacantInsert LruCache.insert
      lhmInsert
    rw [h, he]
    exact ⟨rfl, rfl⟩

/-- Claim C9 witness: on a cache holding key 1, `or_insert(1, 99)`
returns the stored value 10 and changes nothing; on the absent key 2
it returns the fresh value and agrees with `insert`. -/
theorem or_insert_contract_witness :
    (⟨[(1, 10)], 2⟩ : LruCache Nat Nat).or_insert 1 99 =
        (10, ⟨[(1, 10)], 2⟩) ∧
      ((⟨[(1, 10)], 2⟩ : LruCache Nat Nat).or_insert 2 20).1 = 20 ∧
      ((⟨[(1, 10)], 2⟩ : LruCache Nat Nat).or_insert 2 20).2 =
        ((⟨[(1, 10)], 2⟩ : LruCache Nat Nat).insert 2 20).2 := by
  have h1 := (or_insert_contract ⟨[(1, 10)], 2⟩ 1 99).1 10 (by decide)
  have h2 := (or_insert_contract ⟨[(1, 10)], 2⟩ 2 20).2 (by decide)
  exact ⟨h1, h2.1, h2.2⟩

section LastN

variable {α : Type u}

lemma lastN_of_length_le (n : Nat) (l : List α) (h : l.length ≤ n) :
    lastN n l = l := by
  rw [lastN, List.take_of_length_le (by simpa using h),
    List.reverse_reverse]

@[simp] lemma length_lastN (n : Nat) (l : List α) :
    (lastN n l).length = min n l.length := by
  simp [lastN]

lemma lastN_sublist (n : Nat) (l : List α) : (lastN n l).Sublist l := by
  have h := (List.take_sublist n l.reverse).reverse
  simpa [lastN] using h

lemma lastN_cons_of_length (x : α) (t : List α) (n : Nat)
    (h : t.length = n) : lastN n (x :: t) = t := by
  have hrev : t.reverse.length = n := by simpa using h
  simp [lastN, List.reverse_cons, List.take_append_eq_append_take, hrev,
    List.take_of_length_le (le_of_eq hrev)]

lemma lastN_eq_tail (n : Nat) (l : List α) (h : l.length = n + 1) :
    lastN n l = l.tail := by
  cases l with
  | nil => simp at h
  | cons x t =>
      simp only [List.length_cons, Nat.succ_inj] at h
      simpa using lastN_cons_of_length x t n h

lemma lastN_append_lastN (n : Nat) (m l : List α) :
    lastN n (lastN n m ++ l) = lastN n (m ++ l) := by
  simp only [lastN, List.reverse_append, List.reverse_reverse]
  rw [List.take_append_eq_append_take, List.take_append_eq_append_take,
    List.take_take]
  have hm : min (n - l.reverse.length) n = n - l.reverse.length := by
    omega
  rw [hm]

end LastN

namespace LruCache

variable {K : Type u} {V : Type v}

lemma insert_fresh_map [DecidableEq K] (c : LruCache K V) (k : K)
    (v : V) (habs : k ∉ c.map.map Prod.fst)
    (hlen : c.map.length ≤ c.max_size) :
    (c.insert k v).2.map = lastN c.max_size (c.map ++ [(k, v)]) := by
  have he : c.map.eraseP (keyIs k) = c.map :=
    eraseP_keyIs_of_absent c.map k habs
  unfold insert lhmInsert evict1
  simp only [map_mk, he, len_eq, capacity_eq, max_size_mk]
  split
  · rename_i hgt
    simp only [List.length_append, List.length_cons, List.length_nil]
      at hgt
    have hone : (c.map ++ [(k, v)]).length = c.max_size + 1 := by
      simp only [List.length_append, List.length_cons, List.length_nil]
      omega
    simp only [remove_lru_map, map_mk]
    exact (lastN_eq_tail c.max_size _ hone).symm
  · rename_i hle
    simp only [List.length_append, List.length_cons, List.length_nil,
      Nat.not_lt] at hle
    rw [lastN_of_length_le]
    simp only [List.length_append, List.length_cons, List.length_nil]
    omega

lemma extend_fresh_map [DecidableEq K] (l : List (K × V)) :
    ∀ c : LruCache K V, c.map.length ≤ c.max_size →
      ((c.map ++ l).map Prod.fst).Nodup →
      (c.extend l).map = lastN c.max_size (c.map ++ l) ∧
        (c.extend l).max_size = c.max_size := by
  induction l with
  | nil =>
      intro c h1 _
      exact ⟨by simp [extend, lastN_of_length_le _ _ h1], rfl⟩
  | cons p t ih =>
      intro c h1 h2
      obtain ⟨k, v⟩ := p
      have hperm :
          List.Perm ((c.map ++ (k, v) :: t).map Prod.fst)
            (k :: ((c.map ++ t).map Prod.fst)) := by
        simp only [List.map_append, List.map_cons]
        exact List.perm_middle
      have hnd2 : (k :: ((c.map ++ t).map Prod.fst)).Nodup :=
        (hperm.nodup_iff).1 h2
      have hkout : k ∉ (c.map ++ t).map Prod.fst :=
        (List.nodup_cons.1 hnd2).1
      have habs : k ∉ c.map.map Prod.fst := by
        intro hmem
        apply hkout
        simp only [List.map_append, List.mem_append]
        exact Or.inl hmem
      have hstep := c.insert_fresh_map k v habs h1
      have hmax : ((c.insert k v).2).max_size = c.max_size := by simp
      have hext : c.extend ((k, v) :: t) = ((c.insert k v).2).extend t :=
        rfl
      have hlen1 : ((c.insert k v).2).map.length ≤
          ((c.insert k v).2).max_size := by
        rw [hstep, hmax]
        simp only [length_lastN]
        omega
      have hsub1 : ((c.insert k v).2).map.Sublist (c.map ++ [(k, v)]) := by
        rw [hstep]
        exact lastN_sublist _ _
      have hnd1 : ((((c.insert k v).2).map ++ t).map Prod.fst).Nodup := by
        have hkeysub :
            ((((c.insert k v).2).map ++ t).map Prod.fst).Sublist
              (((c.map ++ [(k, v)]) ++ t).map Prod.fst) := by
          refine List.Sublist.map Prod.fst ?_
          exact hsub1.append_right t
        have heq : (c.map ++ [(k, v)]) ++ t = c.map ++ (k, v) :: t := by
          simp
        rw [heq] at hkeysub
        exact h2.sublist hkeysub
      have hres := ih ((c.insert k v).2) hlen1 hnd1
      rw [hext, hres.1, hstep, hmax, lastN_append_lastN]
      refine ⟨by simp, by rw [hres.2, hmax]⟩

lemma get_fst [DecidableEq K] (c : LruCache K V) (k : K) :
    (c.get k).1 = lhmFindVal c.map k := by
  unfold get lhmGetRefresh
  cases h : lhmFindVal c.map k <;> simp [h]

end LruCache

/-- Claim C4: for capacity `C ≥ 1` and `C+1` pairwise-distinct keys
inserted in order into a fresh cache with no intervening gets, after
the last insert the first key is absent and every later key is
present with its inserted value. -/
theorem lru_order_property (C : Nat) (hC : 1 ≤ C) (l : List (Nat × Nat))
    (hlen : l.length = C + 1) (hnd : (l.map Prod.fst).Nodup) :
    (∀ p ∈ l.head?,
        (((LruCache.new C : LruCache Nat Nat).extend l).get p.1).1 =
          none) ∧
      (∀ p ∈ l.tail,
        (((LruCache.new C : LruCache Nat Nat).extend l).get p.1).1 =
          some p.2) := by
  have hfill :=
    LruCache.extend_fresh_map l (LruCache.new C : LruCache Nat Nat)
      (by simp [LruCache.new]) (by simpa [LruCache.new] using hnd)
  have hmap : ((LruCache.new C : LruCache Nat Nat).extend l).map =
      l.tail := by
    rw [hfill.1]
    show lastN C ((List.nil : List (Nat × Nat)) ++ l) = l.tail
    rw [List.nil_append]
    exact lastN_eq_tail C l hlen
  cases l with
  | nil => simp at hlen
  | cons p t =>
      simp only [List.map_cons, List.nodup_cons, List.mem_map] at hnd
      constructor
      · intro q hq
        simp only [List.head?_cons, Option.mem_def, Option.some_inj]
          at hq
        subst hq
        rw [LruCache.get_fst, hmap]
        simp only [List.tail_cons]
        rw [lhmFindVal_eq_none_iff]
        intro hmem
        rcases List.mem_map.1 hmem with ⟨r, hr, hr1⟩
        exact hnd.1 ⟨r, hr, hr1⟩
      · intro q hq
        simp only [List.tail_cons] at hq
        rw [LruCache.get_fst, hmap]
        simp only [List.tail_cons]
        exact lhmFindVal_of_nodup t q.1 q.2 hnd.2 (by simpa using hq)

/-- Claim C4 witness: capacity 2, keys 1, 2, 3 inserted in order;
key 1 is evicted, keys 2 and 3 respond with their values. -/
theorem lru_order_property_witness :
    (((LruCache.new 2 : LruCache Nat Nat).extend
        [(1, 10), (2, 20), (3, 30)]).get 1).1 = none ∧
      (((LruCache.new 2 : LruCache Nat Nat).extend
        [(1, 10), (2, 20), (3, 30)]).get 2).1 = some 20 ∧
      (((LruCache.new 2 : LruCache Nat Nat).extend
        [(1, 10), (2, 20), (3, 30)]).get 3).1 = some 30 := by
  have h :=
    lru_order_property 2 (by decide) [(1, 10), (2, 20), (3, 30)]
      (by decide) (by decide)
  exact ⟨h.1 (1, 10) (by decide), h.2 (2, 20) (by decide),
    h.2 (3, 30) (by decide)⟩

/-- Claim C5: fill a fresh cache of capacity `C = t.length + 2 ≥ 2`
with the distinct-keyed entries `a :: b :: t`, `get` the first key
(which succeeds and moves it to the most-recently-used position),
then insert one new distinct key: the second key `b` is evicted, not
`a`; `a` remains present with its value. -/
theorem refresh_property (a b : Nat × Nat) (t : List (Nat × Nat))
    (knew vnew : Nat)
    (hnd : ((a :: b :: t).map Prod.fst ++ [knew]).Nodup) :
    (((LruCache.new (t.length + 2) : LruCache Nat Nat).extend
        (a :: b :: t)).get a.1).1 = some a.2 ∧
      lhmFindVal ((((LruCache.new (t.length + 2) :
          LruCache Nat Nat).extend (a :: b :: t)).get a.1).2.insert
            knew vnew).2.map a.1 = some a.2 ∧
      lhmFindVal ((((LruCache.new (t.length + 2) :
          LruCache Nat Nat).extend (a :: b :: t)).get a.1).2.insert
            knew vnew).2.map b.1 = none := by
  obtain ⟨hndl, -, hdisj⟩ := List.nodup_append.1 hnd
  have hknew : knew ∉ (a :: b :: t).map Prod.fst := by
    intro hmem
    exact hdisj hmem (List.mem_singleton.2 rfl)
  simp only [List.map_cons, List.nodup_cons, List.mem_map] at hndl
  have hab : a.1 ≠ b.1 := by
    intro h
    apply hndl.1
    rw [h]
    exact List.mem_cons_self _ _
  have hat : a.1 ∉ t.map Prod.fst := by
    intro hmem
    exact hndl.1 (List.mem_cons_of_mem _ hmem)
  have hbt : b.1 ∉ t.map Prod.fst := by
    intro hmem
    rcases List.mem_map.1 hmem with ⟨r, hr, hr1⟩
    exact hndl.2.1 ⟨r, hr, hr1⟩
  have hka : knew ≠ a.1 := by
    intro h
    exact hknew (by simp [← h])
  have hkb : knew ≠ b.1 := by
    intro h
    apply hknew
    simp only [List.map_cons, List.mem_cons]
    right; left; exact h
  have hkt : knew ∉ t.map Prod.fst := by
    intro hmem
    apply hknew
    simp only [List.map_cons, List.mem_cons]
    right; right; exact hmem
  have hndfull : ((a :: b :: t).map Prod.fst).Nodup := by
    simp only [List.map_cons, List.nodup_cons, List.mem_map]
    exact hndl
  have hfill :=
    LruCache.extend_fresh_map (a :: b :: t)
      (LruCache.new (t.length + 2) : LruCache Nat Nat)
      (by simp [LruCache.new]) (by simpa [LruCache.new] using hndfull)
  have hmap1 : ((LruCache.new (t.length + 2) :
      LruCache Nat Nat).extend (a :: b :: t)).map = a :: b :: t := by
    rw [hfill.1]
    show lastN (t.length + 2)
        ((List.nil : List (Nat × Nat)) ++ (a :: b :: t)) = a :: b :: t
    rw [List.nil_append]
    exact lastN_of_length_le _ _ (by simp)
  have hmax1 : ((LruCache.new (t.length + 2) :
      LruCache Nat Nat).extend (a :: b :: t)).max_size =
        t.length + 2 := hfill.2
  have hfind1 : lhmFindVal ((LruCache.new (t.length + 2) :
      LruCache Nat Nat).extend (a :: b :: t)).map a.1 = some a.2 := by
    rw [hmap1]
    exact lhmFindVal_of_nodup _ a.1 a.2 hndfull (by simp)
  refine ⟨by rw [LruCache.get_fst]; exact hfind1, ?_⟩
  have hmap2 : (((LruCache.new (t.length + 2) :
      LruCache Nat Nat).extend (a :: b :: t)).get a.1).2.map =
        b :: (t ++ [(a.1, a.2)]) := by
    unfold LruCache.get lhmGetRefresh
    rw [hfind1]
    simp only [LruCache.map_mk, hmap1]
    rw [List.eraseP_cons_of_pos (l := b :: t) (by simp [keyIs])]
    simp
  have hmax2 : (((LruCache.new (t.length + 2) :
      LruCache Nat Nat).extend (a :: b :: t)).get a.1).2.max_size =
        t.length + 2 := by
    unfold LruCache.get
    rw [hmax1]
  have habs2 : knew ∉ ((b :: (t ++ [(a.1, a.2)])).map Prod.fst) := by
    intro hmem
    simp only [List.map_cons, List.map_append, List.map_nil,
      List.mem_cons, List.mem_append, List.mem_singleton] at hmem
    rcases hmem with h | h | h | h
    · exact hkb h
    · exact hkt h
    · exact hka h
    · exact absurd h (List.not_mem_nil knew)
  have hmap3 : ((((LruCache.new (t.length + 2) :
      LruCache Nat Nat).extend (a :: b :: t)).get a.1).2.insert
        knew vnew).2.map = t ++ ((a.1, a.2) :: [(knew, vnew)]) := by
    unfold LruCache.insert lhmInsert LruCache.evict1
    simp only [LruCache.map_mk, hmap2, LruCache.len_eq,
      LruCache.capacity_eq, LruCache.max_size_mk, hmax2]
    rw [eraseP_keyIs_of_absent _ _ habs2]
    rw [if_pos (by simp)]
    simp only [LruCache.remove_lru_map, LruCache.map_mk,
      List.cons_append, List.tail_cons]
    simp
  rw [hmap3]
  constructor
  · rw [lhmFindVal_append_absent_left _ _ _ hat]
    simp [lhmFindVal, List.find?_cons, keyIs]
  · rw [lhmFindVal_eq_none_iff]
    intro hmem
    simp only [List.map_append, List.map_cons, List.map_nil,
      List.mem_append, List.mem_cons, List.not_mem_nil, or_false]
      at hmem
    rcases hmem with h | h | h
    · exact hbt h
    · exact hab h.symm
    · exact hkb h.symm

/-- Claim C5 witness: capacity 2 with entries for keys 1 and 2,
getting key 1 and then inserting key 3 evicts key 2 and keeps
key 1. -/
theorem refresh_property_witness :
    (((LruCache.new 2 : LruCache Nat Nat).extend
        [(1, 10), (2, 20)]).get 1).1 = some 10 ∧
      lhmFindVal ((((LruCache.new 2 : LruCache Nat Nat).extend
        [(1, 10), (2, 20)]).get 1).2.insert 3 30).2.map 1 = some 10 ∧
      lhmFindVal ((((LruCache.new 2 : LruCache Nat Nat).extend
        [(1, 10), (2, 20)]).get 1).2.insert 3 30).2.map 2 = none :=
  refresh_property (1, 10) (2, 20) [] 3 30 (by decide)

section DebugFormat

lemma foldl_commaSep (l : List String) (acc : String) :
    l.foldl (fun a s => a ++ ", " ++ s) acc =
      acc ++ l.foldl (fun a s => a ++ ", " ++ s) "" := by
  induction l generalizing acc with
  | nil => simp [String.append_empty]
  | cons x t ih =>
      simp only [List.foldl_cons]
      rw [ih (acc ++ ", " ++ x), ih ("" ++ ", " ++ x)]
      simp [String.append_assoc, String.empty_append]

lemma joinSep_cons (s : String) (t : List String) :
    LruCache.joinSep (s :: t) =
      s ++ t.foldl (fun a r => a ++ ", " ++ r) "" := by
  induction t generalizing s with
  | nil => simp [LruCache.joinSep, String.append_empty]
  | cons x r ih =>
      show s ++ ", " ++ LruCache.joinSep (x :: r) = _
      rw [ih x]
      simp only [List.foldl_cons]
      rw [foldl_commaSep r ("" ++ ", " ++ x)]
      simp [String.append_assoc, String.empty_append]

lemma debug_foldl_enumFrom {α : Type u} (g : α → String) (l : List α) :
    ∀ (n : Nat) (acc : String),
      (List.enumFrom (n + 1) l).foldl
        (fun a ip => a ++ (if ip.1 ≠ 0 then ", " else "") ++ g ip.2)
        acc =
      acc ++ (l.map g).foldl (fun a s => a ++ ", " ++ s) "" := by
  induction l with
  | nil => intro n acc; simp [String.append_empty]
  | cons x t ih =>
      intro n acc
      have hstep : List.enumFrom (n + 1) (x :: t) =
          (n + 1, x) :: List.enumFrom (n + 2) t := rfl
      rw [hstep]
      simp only [List.foldl_cons, List.map_cons]
      rw [if_pos (by omega)]
      rw [ih (n + 1) (acc ++ ", " ++ g x)]
      rw [foldl_commaSep (t.map g) ("" ++ ", " ++ g x)]
      simp [String.append_assoc, String.empty_append]

end DebugFormat

/-- Claim C8: the debug rendering lists the entries from
most-recently-used to least-recently-used — the reverse of the store
front-to-back order — as comma-space separated `k: v` items between
braces, using the textual representation supplied for keys and
values; the loop-with-index implementation equals the spec-worded
separator-joined rendering, and the empty cache renders as the two
braces alone. -/
theorem debug_format (fk : Nat → String) (fv : Nat → String)
    (c : LruCache Nat Nat) :
    LruCache.debugFmt fk fv c = LruCache.debugRenderSpec fk fv c ∧
      (c.map = [] → LruCache.debugFmt fk fv c = "\x7b\x7d") := by
  have hmain : ∀ l : List (Nat × Nat),
      (l.enum.foldl
        (fun acc ip =>
          acc ++ (if ip.1 ≠ 0 then ", " else "") ++
            LruCache.fmtEntry fk fv ip.2)
        "\x7b") ++ "\x7d" =
      "\x7b" ++
        LruCache.joinSep (l.map (LruCache.fmtEntry fk fv)) ++ "\x7d" := by
    intro l
    cases l with
    | nil => simp [LruCache.joinSep, String.append_empty]
    | cons p t =>
        have hstep : (p :: t).enum =
            (0, p) :: List.enumFrom 1 t := rfl
        rw [hstep]
        simp only [List.foldl_cons, List.map_cons]
        rw [if_neg (by omega)]
        rw [debug_foldl_enumFrom (LruCache.fmtEntry fk fv) t 0
          ("\x7b" ++ "" ++ LruCache.fmtEntry fk fv p)]
        rw [joinSep_cons]
        simp [String.append_assoc, String.append_empty]
  constructor
  · unfold LruCache.debugFmt LruCache.debugRenderSpec
    exact hmain c.map.reverse
  · intro he
    unfold LruCache.debugFmt
    rw [he]
    rfl

/-- Claim C8 witness: the empty cache renders as the two braces. -/
theorem debug_format_witness :
    LruCache.debugFmt (fun n : Nat => toString n)
        (fun n : Nat => toString n) (⟨[], 5⟩ : LruCache Nat Nat) =
      "\x7b\x7d" :=
  (debug_format (fun n : Nat => toString n)
    (fun n : Nat => toString n) ⟨[], 5⟩).2 rfl
